import Mathlib

/-!
Verification of the decaffeinate CLI traversal-and-conversion orchestrator
(`src/cli.js`).

The embedding models, faithfully to the JavaScript source:
* the path manipulation helpers it imports from Node's `path` module
  (posix semantics: `join`, `dirname`, `basename`, `extname`), working on
  `List Char` so that all definitions are executable and decidable;
* the asynchronous traversal of `runWithPaths` (`processNext`,
  `processPath`, `processDirectory`, `processFile`, `runWithCode`) as a
  fuelled state machine over the mutable `pending` work list and `errors`
  accumulator, with the filesystem and the conversion engine supplied as
  oracles and every observable effect (stat, readdir, read, write,
  console output, conversion invocation) recorded as an event;
* the stream mode `runWithStdio` and the `run` entry point dispatch.
-/

namespace Decaf

/-- Path and text values are plain character lists, mirroring JavaScript
strings without any extra structure. -/
abbrev Seg := List Char

abbrev Path := List Char

abbrev Str := List Char

/-- An opaque error value (a message), as passed to Node callbacks. -/
abbrev Err := List Char

/-! ## Model of Node `path` (posix) helpers used by `cli.js` -/

/-- Split a character list at every `'/'`. Inverse of joining segments
with `'/'`; models how posix paths decompose into segments. -/
def splitSlash : List Char → List (List Char)
  | [] => [[]]
  | c :: cs =>
    let r := splitSlash cs
    if c = '/' then [] :: r else (c :: r.headD []) :: r.tail

/-- Join segments with `'/'` separators. -/
def joinSegs : List Seg → List Char
  | [] => []
  | [s] => s
  | s :: s' :: t => s ++ '/' :: joinSegs (s' :: t)

/-- Drop trailing empty segments, which arise from trailing slashes. -/
def dropTrailingEmpties (l : List Seg) : List Seg :=
  (l.reverse.dropWhile (fun s => s.isEmpty)).reverse

/-- Model of Node `path.posix.basename(p)` (no extension argument): the
last non-empty-after-trailing-slashes segment of the path. -/
def basenamePlainL (p : List Char) : List Char :=
  (dropTrailingEmpties (splitSlash p)).getLastD []

/-- Model of Node `path.posix.extname`: the substring of the basename
from its last dot, except that a dot in first position (hidden files) or
the basename `..` yields the empty extension. -/
def extnameL (p : List Char) : List Char :=
  let b := basenamePlainL p
  let pre := b.reverse.takeWhile (fun c => ¬ (c = '.'))
  if pre.length = b.length then []
  else if b.length = pre.length + 1 then []
  else if b = ['.', '.'] then []
  else '.' :: pre.reverse

/-- Model of Node `path.posix.basename(p, ext)`: the basename with `ext`
stripped when it is a proper suffix of the basename; a basename equal to
`ext` is returned whole, and a path equal to `ext` yields `""`. -/
def basenameExtL (p ext : List Char) : List Char :=
  if ext ≠ [] ∧ ext.length ≤ p.length then
    if ext = p then []
    else
      let b := basenamePlainL p
      if b ≠ ext ∧ ext.isSuffixOf b then b.take (b.length - ext.length) else b
  else basenamePlainL p

/-- Model of Node `path.posix.dirname`: everything before the last slash
that precedes the basename, with the documented special cases for roots
and for paths without a directory part. -/
def dirnameL (p : List Char) : List Char :=
  if p = [] then ['.']
  else
    let root := decide (p.head? = some '/')
    let segs := dropTrailingEmpties (splitSlash p)
    if segs.length ≤ 1 then (if root then ['/'] else ['.'])
    else
      let d := joinSegs segs.dropLast
      if d = [] then ['/']
      else if segs.dropLast = [[], []] then ['/', '/']
      else d

/-- One step of posix path normalization over the segment stack: empty
and `.` segments vanish, `..` pops the previous real segment (or is kept
when the path is relative and there is nothing left to pop). -/
def normStep (allowUp : Bool) (acc : List Seg) (seg : Seg) : List Seg :=
  if seg = [] ∨ seg = ['.'] then acc
  else if seg = ['.', '.'] then
    match acc with
    | [] => if allowUp then [seg] else []
    | a :: rest => if a = ['.', '.'] then seg :: a :: rest else rest
  else seg :: acc

/-- Normalized segment list of a path (segments in order). -/
def normCore (allowUp : Bool) (segs : List Seg) : List Seg :=
  (segs.foldl (normStep allowUp) []).reverse

/-- Model of Node `path.posix.normalize`. -/
def normalizeL (p : List Char) : List Char :=
  if p = [] then ['.']
  else
    let isAbs := decide (p.head? = some '/')
    let trailing := decide (p.getLast? = some '/')
    let core := joinSegs (normCore (!isAbs) (splitSlash p))
    if core = [] then
      if isAbs then ['/'] else if trailing then ['.', '/'] else ['.']
    else
      let core' := if trailing then core ++ ['/'] else core
      if isAbs then '/' :: core' else core'

/-- Model of Node `path.posix.join` on two arguments: concatenation with
a separator (empty arguments dropped) followed by normalization. -/
def joinL (a b : List Char) : List Char :=
  normalizeL (if a = [] then b else if b = [] then a else a ++ '/' :: b)

/-- Boolean suffix test, modelling JavaScript `String.endsWith`. -/
def endsWithL (p suf : List Char) : Bool := suf.isSuffixOf p

/-! ## Model of the orchestrator in `cli.js` -/

/-- The extension filter applied to directory children
(`processDirectory`, lines 133-141): `.js` in modernize mode, the three
CoffeeScript extensions otherwise. -/
def extFilter (modernizeJS : Bool) (child : Path) : Bool :=
  if modernizeJS then endsWithL child ".js".data
  else
    endsWithL child ".coffee".data || endsWithL child ".litcoffee".data ||
      endsWithL child ".coffee.md".data

/-- The output path computation of `processFile` (lines 150-151):
`join(dirname(path), basename(path, extension)) + '.js'` where the
extension is the whole `.coffee.md` suffix when present and
`extname(path)` otherwise. -/
def outputPathL (path : Path) : Path :=
  let extension :=
    if endsWithL path ".coffee.md".data then ".coffee.md".data else extnameL path
  joinL (dirnameL path) (basenameExtL path extension) ++ ".js".data

/-- Result of one invocation of the conversion engine
(`convert` / `modernizeJS` as wrapped by `runWithCode`): a success code,
a thrown error detected by `PatchError.detect`, or any other thrown
error. -/
inductive ConvResult
  | ok (code : Str)
  | patch (msg : Str)
  | err (e : Err)
deriving DecidableEq

/-- The filesystem capability consumed by the orchestrator, one oracle
per Node `fs` function used. `stat` answers whether the path is a
directory, `readdir` lists child names. -/
structure FS where
  stat : Path → Except Err Bool
  readdir : Path → Except Err (List Path)
  readFile : Path → Except Err Str
  writeFile : Path → Str → Option Err

/-- The run configuration relevant to the core: the modernize-mode flag
(selecting the extension filter) and the conversion engine, abstracted as
one oracle from (filename, source text) to a `ConvResult`. -/
structure Config where
  modernizeJS : Bool
  engine : Path → Str → ConvResult

/-- Observable effects of a run, in order of occurrence. -/
inductive Event
  | statCall (p : Path)
  | readdirCall (p : Path)
  | log (line : Str)
  | readCall (p : Path)
  | convertCall (name : Path) (source : Str)
  | writeCall (p : Path) (content : Str)
  | stdoutWrite (s : Str)
  | stderrLine (s : Str)
deriving DecidableEq

/-- The progress line printed by `processFile` (line 152). -/
def progressLine (path out : Path) : Str := path ++ " → ".data ++ out

/-- The diagnostic line printed by `runWithCode` for a patch error
(line 200). -/
def patchLine (name : Path) (msg : Str) : Str := name ++ ": ".data ++ msg

/-- Final result of a traversal run.

* `done`: the work list drained; `delivered` is the error list handed to
  the completion callback, or `none` when no callback was supplied
  (`processNext`, lines 170-172). The process then exits successfully.
* `stalled`: a `stat` callback received an error; `processPath`
  (lines 116-125) pushes the error but never calls `processNext`, so the
  remaining work list is abandoned and no completion is ever signalled.
* `fatalPatch`: `runWithCode` caught a patch error, printed the
  diagnostic and called `process.exit(1)` (lines 199-202).
* `fatalThrow`: `runWithCode` re-threw a non-patch engine error
  (line 204), crashing the process.
* `outOfFuel`: the bound on the number of processed work items was
  exhausted (an artefact of the fuelled embedding only). -/
inductive Outcome
  | done (delivered : Option (List Err)) (errors : List Err) (events : List Event)
  | stalled (errors : List Err) (events : List Event) (remaining : List Path)
  | fatalPatch (errors : List Err) (events : List Event) (remaining : List Path)
  | fatalThrow (e : Err) (errors : List Err) (events : List Event) (remaining : List Path)
  | outOfFuel (pending : List Path) (errors : List Err) (events : List Event)
deriving DecidableEq

/-- The traversal loop of `runWithPaths` (lines 112-176). One unit of
fuel is consumed per work item taken off `pending`; each branch mirrors
the corresponding callback in the source:

* empty `pending`: `processNext` invokes the callback when present
  (lines 167-173);
* head `path`: `processPath` stats it; on error the error is recorded
  and, as in the source, no continuation runs (the run stalls);
* directory: `processDirectory` lists children, prepends the
  filter-matching ones joined onto the directory path, and continues
  whether or not `readdir` failed (lines 127-147);
* file: `processFile` prints the progress line, reads the file
  (read errors are recorded and the run continues), converts via
  `runWithCode` (patch errors exit, other engine errors are re-thrown),
  writes the result, records any write error, and continues
  (lines 149-165, 190-207). -/
def runLoop (cfg : Config) (fs : FS) (cb : Bool) :
    Nat → List Path → List Err → List Event → Outcome
  | 0, pending, errors, events => .outOfFuel pending errors events
  | _ + 1, [], errors, events =>
    .done (if cb then some errors else none) errors events
  | fuel + 1, path :: rest, errors, events =>
    let ev := events ++ [.statCall path]
    match fs.stat path with
    | .error e => .stalled (errors ++ [e]) ev rest
    | .ok isDir =>
      if isDir then
        let ev := ev ++ [.readdirCall path]
        match fs.readdir path with
        | .error e => runLoop cfg fs cb fuel rest (errors ++ [e]) ev
        | .ok children =>
          let queued :=
            (children.filter (extFilter cfg.modernizeJS)).map (fun c => joinL path c)
          runLoop cfg fs cb fuel (queued ++ rest) errors ev
      else
        let out := outputPathL path
        let ev := ev ++ [.log (progressLine path out), .readCall path]
        match fs.readFile path with
        | .error e => runLoop cfg fs cb fuel rest (errors ++ [e]) ev
        | .ok data =>
          let ev := ev ++ [.convertCall path data]
          match cfg.engine path data with
          | .patch m => .fatalPatch errors (ev ++ [.stderrLine (patchLine path m)]) rest
          | .err e => .fatalThrow e errors ev rest
          | .ok code =>
            let ev := ev ++ [.writeCall out code]
            match fs.writeFile out code with
            | some e => runLoop cfg fs cb fuel rest (errors ++ [e]) ev
            | none => runLoop cfg fs cb fuel rest errors ev

/-- `runWithPaths(paths, options, callback)`: the work list is seeded
with the user-supplied paths and the error list starts empty. -/
def runWithPaths (cfg : Config) (fs : FS) (paths : List Path) (cb : Bool)
    (fuel : Nat) : Outcome :=
  runLoop cfg fs cb fuel paths [] []

/-- Result of the stream mode adapter `runWithStdio` (lines 178-185). -/
inductive StdioOutcome
  | ok (events : List Event)
  | fatalPatch (events : List Event)
  | fatalThrow (e : Err) (events : List Event)
deriving DecidableEq

/-- `runWithStdio`: every stdin chunk is appended into one buffer; on
end of input `runWithCode('stdin', data, options)` runs once and its
result is written to stdout. Patch errors print and exit, other engine
errors are re-thrown. No filesystem oracle is consulted. -/
def runWithStdio (cfg : Config) (chunks : List Str) : StdioOutcome :=
  let data := chunks.flatten
  let ev := [Event.convertCall "stdin".data data]
  match cfg.engine "stdin".data data with
  | .ok code => .ok (ev ++ [.stdoutWrite code])
  | .patch m => .fatalPatch (ev ++ [.stderrLine (patchLine "stdin".data m)])
  | .err e => .fatalThrow e ev

/-- Overall result of the `run` entry point. -/
inductive RunOutcome
  | traversal (o : Outcome)
  | stdio (o : StdioOutcome)
deriving DecidableEq

/-- The `run` entry point (lines 13-21): with paths present it invokes
`runWithPaths(options.paths, options)` leaving the callback parameter at
its default `null`; otherwise it runs the stream adapter. -/
def run (cfg : Config) (paths : List Path) (fs : FS) (chunks : List Str)
    (fuel : Nat) : RunOutcome :=
  if paths = [] then .stdio (runWithStdio cfg chunks)
  else .traversal (runWithPaths cfg fs paths false fuel)

/-! ## Projections on outcomes -/

/-- Events recorded by a traversal outcome. -/
def Outcome.eventsOf : Outcome → List Event
  | .done _ _ ev => ev
  | .stalled _ ev _ => ev
  | .fatalPatch _ ev _ => ev
  | .fatalThrow _ _ ev _ => ev
  | .outOfFuel _ _ ev => ev

/-- Accumulated error list of a traversal outcome. -/
def Outcome.errorsOf : Outcome → List Err
  | .done _ e _ => e
  | .stalled e _ _ => e
  | .fatalPatch e _ _ => e
  | .fatalThrow _ e _ _ => e
  | .outOfFuel _ e _ => e

/-- Error list delivered to the completion callback, when one ran. -/
def Outcome.deliveredOf : Outcome → Option (List Err)
  | .done d _ _ => d
  | _ => none

/-- Whether the run drained its work list and completed normally, which
is the only way the process exits with a success status. -/
def Outcome.isDone : Outcome → Bool
  | .done _ _ _ => true
  | _ => false

/-- Whether the run stalled on a `stat` error. -/
def Outcome.isStalled : Outcome → Bool
  | .stalled _ _ _ => true
  | _ => false

/-- Paths handed to `stat`, in order: the classification order. -/
def classifiedOf (o : Outcome) : List Path :=
  o.eventsOf.filterMap fun e =>
    match e with
    | .statCall p => some p
    | _ => none

/-- Whether an event is a filesystem interaction. -/
def isFsEvent : Event → Bool
  | .statCall _ => true
  | .readdirCall _ => true
  | .readCall _ => true
  | .writeCall _ _ => true
  | _ => false

/-- Whether an event is an invocation of the conversion engine. -/
def isConvertEvent : Event → Bool
  | .convertCall _ _ => true
  | _ => false

/-- Events of a stream-mode outcome. -/
def StdioOutcome.eventsOf : StdioOutcome → List Event
  | .ok ev => ev
  | .fatalPatch ev => ev
  | .fatalThrow _ ev => ev

/-- A plain path segment: non-empty, not one of the special segments
`.` and `..`, and slash-free, as real directory entry names are. -/
def PlainSeg (s : Seg) : Prop :=
  s ≠ [] ∧ s ≠ ['.'] ∧ s ≠ ['.', '.'] ∧ '/' ∉ s

instance : DecidablePred PlainSeg := fun s => by
  unfold PlainSeg; infer_instance

/-- Formalization of claim C4's wording, for comparison with the code's
`outputPathL`: the source path's directory joined with its base name
with the detected extension stripped, plus `.js`. Stripping is here
taken at its word: whenever the detected extension is a suffix of the
base name it is removed. -/
def resolvePathClaim (p : Path) : Path :=
  let ext :=
    if endsWithL p ".coffee.md".data then ".coffee.md".data else extnameL p
  let b := basenamePlainL p
  let stripped := if ext.isSuffixOf b then b.take (b.length - ext.length) else b
  joinL (dirnameL p) stripped ++ ".js".data

/-! ## Concrete fixtures used by witnesses and counterexamples -/

/-- An engine echoing its input, except that designated source texts
trigger a patch error or an opaque engine error. -/
def engFix : Path → Str → ConvResult := fun _ s =>
  if s = "PATCH".data then .patch "bad".data
  else if s = "THROW".data then .err "boom".data
  else .ok s

/-- A convert-mode configuration over `engFix`. -/
def cfgFix : Config := ⟨false, engFix⟩

/-- The stat error of the missing fixture file. -/
def errStatB : Err := "ENOENT: b.coffee".data

/-- A read failure fixture error. -/
def errRead : Err := "EACCES: read".data

/-- The error any unexpected filesystem access reports in fixtures. -/
def errOther : Err := "EIO".data

/-- Fixture for C1: `a.coffee` and `c.coffee` are readable files while
stat on `b.coffee` fails. -/
def fsC1 : FS where
  stat p := if p = "b.coffee".data then .error errStatB else .ok false
  readdir _ := .error errOther
  readFile _ := .ok "x = 1".data
  writeFile _ _ := none

/-- Fixture for C2: directory `D` has the single child `sub.coffee`,
which is itself a directory containing the file `x.coffee`. -/
def fsC2 : FS where
  stat p :=
    if p = "D".data ∨ p = "D/sub.coffee".data then .ok true
    else if p = "D/sub.coffee/x.coffee".data then .ok false
    else .error errOther
  readdir p :=
    if p = "D".data then .ok ["sub.coffee".data]
    else if p = "D/sub.coffee".data then .ok ["x.coffee".data]
    else .error errOther
  readFile _ := .ok "q".data
  writeFile _ _ := none

/-- Fixture for C5/C6: directory `D` contains eligible files `x.coffee`
and `y.coffee` plus the ineligible `README`; `z.coffee` is a top-level
file. -/
def fsC5 : FS where
  stat p :=
    if p = "D".data then .ok true
    else if p = "D/x.coffee".data ∨ p = "D/y.coffee".data ∨ p = "z.coffee".data then
      .ok false
    else .error errOther
  readdir p :=
    if p = "D".data then .ok ["x.coffee".data, "y.coffee".data, "README".data]
    else .error errOther
  readFile _ := .ok "c".data
  writeFile _ _ := none

/-- Fixture for C3: two files; the first one's contents trigger the
designated engine failure, the second is fine. -/
def fsC3 : FS where
  stat _ := .ok false
  readdir _ := .error errOther
  readFile p :=
    if p = "p.coffee".data then .ok "PATCH".data
    else if p = "t.coffee".data then .ok "THROW".data
    else .ok "fine".data
  writeFile _ _ := none

/-- Fixture for C10: every path stats as a file; reading `bad.coffee`
fails, every other file reads fine. -/
def fsC10 : FS where
  stat _ := .ok false
  readdir _ := .error errOther
  readFile p := if p = "bad.coffee".data then .error errRead else .ok "ok".data
  writeFile _ _ := none

/-! ## Lemmas about the path model -/

theorem splitSlash_ne_nil (l : List Char) : splitSlash l ≠ [] := by
  cases l with
  | nil => simp [splitSlash]
  | cons c cs =>
    simp only [splitSlash]
    by_cases h : c = '/' <;> simp [h]

theorem splitSlash_cons_slash (cs : List Char) :
    splitSlash ('/' :: cs) = [] :: splitSlash cs := by
  simp [splitSlash]

theorem splitSlash_cons_ne (c : Char) (cs : List Char) (h : c ≠ '/') :
    splitSlash (c :: cs) =
      (c :: (splitSlash cs).headD []) :: (splitSlash cs).tail := by
  simp [splitSlash, h]

theorem splitSlash_no_slash (s : List Char) (h : '/' ∉ s) : splitSlash s = [s] := by
  induction s with
  | nil => rfl
  | cons c cs ih =>
    have hc : c ≠ '/' := by rintro rfl; exact h (List.mem_cons_self _ _)
    have hcs : '/' ∉ cs := fun m => h (List.mem_cons_of_mem _ m)
    rw [splitSlash_cons_ne c cs hc, ih hcs]
    rfl

theorem splitSlash_append (x y : List Char) :
    splitSlash (x ++ '/' :: y) = splitSlash x ++ splitSlash y := by
  induction x with
  | nil => simp [splitSlash_cons_slash, splitSlash]
  | cons c x' ih =>
    by_cases hc : c = '/'
    · subst hc
      rw [List.cons_append, splitSlash_cons_slash, splitSlash_cons_slash, ih]
      rfl
    · rw [List.cons_append, splitSlash_cons_ne c _ hc, splitSlash_cons_ne c x' hc, ih]
      obtain ⟨hh, t, he⟩ : ∃ hh t, splitSlash x' = hh :: t := by
        cases hsx : splitSlash x' with
        | nil => exact absurd hsx (splitSlash_ne_nil x')
        | cons a b => exact ⟨a, b, rfl⟩
      rw [he]
      rfl

theorem joinSegs_cons_cons (s s' : Seg) (t : List Seg) :
    joinSegs (s :: s' :: t) = s ++ '/' :: joinSegs (s' :: t) := rfl

theorem joinSegs_append_last (l : List Seg) (b : Seg) (hl : l ≠ []) :
    joinSegs (l ++ [b]) = joinSegs l ++ '/' :: b := by
  induction l with
  | nil => exact absurd rfl hl
  | cons s t ih =>
    cases t with
    | nil => rfl
    | cons s' t' =>
      calc joinSegs ((s :: s' :: t') ++ [b])
          = s ++ '/' :: joinSegs ((s' :: t') ++ [b]) := rfl
        _ = s ++ '/' :: (joinSegs (s' :: t') ++ '/' :: b) := by rw [ih (by simp)]
        _ = (s ++ '/' :: joinSegs (s' :: t')) ++ '/' :: b := by simp
        _ = joinSegs (s :: s' :: t') ++ '/' :: b := rfl

theorem joinSegs_ne_nil (l : List Seg) (hl : l ≠ []) (h : ∀ s ∈ l, s ≠ []) :
    joinSegs l ≠ [] := by
  cases l with
  | nil => exact absurd rfl hl
  | cons s t =>
    cases t with
    | nil => exact h s (by simp)
    | cons s' t' =>
      rw [joinSegs_cons_cons]
      rcases s with _ | ⟨c, s''⟩ <;> simp

theorem joinSegs_head? (s : Seg) (t : List Seg) (hs : s ≠ []) :
    (joinSegs (s :: t)).head? = s.head? := by
  cases t with
  | nil => rfl
  | cons s' t' =>
    rw [joinSegs_cons_cons]
    exact List.head?_append_of_ne_nil _ hs

theorem joinSegs_getLast? (l : List Seg) (b : Seg) (hb : b ≠ []) :
    (joinSegs (l ++ [b])).getLast? = b.getLast? := by
  cases l with
  | nil => rfl
  | cons s t =>
    rw [joinSegs_append_last _ _ (by simp)]
    rw [show joinSegs (s :: t) ++ '/' :: b = (joinSegs (s :: t) ++ ['/']) ++ b by simp]
    exact List.getLast?_append_of_ne_nil _ hb

theorem joinSegs_last_absorb (l : List Seg) (b suf : Seg) :
    joinSegs (l ++ [b]) ++ suf = joinSegs (l ++ [b ++ suf]) := by
  cases l with
  | nil => rfl
  | cons s t =>
    rw [joinSegs_append_last _ b (by simp), joinSegs_append_last _ (b ++ suf) (by simp)]
    simp

theorem joinSegs_singleton (s : Seg) : joinSegs [s] = s := rfl

theorem last_length_le_joinSegs (l : List Seg) (b : Seg) :
    b.length ≤ (joinSegs (l ++ [b])).length := by
  cases l with
  | nil => simp [joinSegs_singleton]
  | cons s t =>
    rw [joinSegs_append_last _ _ (by simp)]
    simp
    omega

theorem dropTrailingEmpties_concat (l : List Seg) (b : Seg) (hb : b ≠ []) :
    dropTrailingEmpties (l ++ [b]) = l ++ [b] := by
  unfold dropTrailingEmpties
  rw [List.reverse_append]
  have h1 : ([b].reverse ++ l.reverse) = b :: l.reverse := by simp
  rw [h1, List.dropWhile_cons]
  simp [List.isEmpty_eq_false.mpr hb]

theorem splitSlash_joinSegs (l : List Seg) (hl : l ≠ []) (hs : ∀ s ∈ l, '/' ∉ s) :
    splitSlash (joinSegs l) = l := by
  induction l with
  | nil => exact absurd rfl hl
  | cons s t ih =>
    cases t with
    | nil => exact splitSlash_no_slash s (hs s (by simp))
    | cons s' t' =>
      rw [joinSegs_cons_cons, splitSlash_append, splitSlash_no_slash s (hs s (by simp)),
        ih (by simp) (fun x hx => hs x (by simp [hx]))]
      rfl

theorem basenamePlain_shape (dsegs : List Seg) (b : Seg) (hb : b ≠ [])
    (hs : ∀ s ∈ dsegs, '/' ∉ s) (hbs : '/' ∉ b) :
    basenamePlainL (joinSegs (dsegs ++ [b])) = b := by
  have hmem : ∀ s ∈ dsegs ++ [b], '/' ∉ s := by
    intro s hs'
    rcases List.mem_append.1 hs' with h | h
    · exact hs s h
    · simp only [List.mem_singleton] at h; subst h; exact hbs
  unfold basenamePlainL
  rw [splitSlash_joinSegs (dsegs ++ [b]) (by simp) hmem,
    dropTrailingEmpties_concat _ _ hb]
  simp

theorem extname_shape (dsegs : List Seg) (stem tail : Seg)
    (hstem : stem ≠ []) (htail : tail ≠ []) (htd : '.' ∉ tail)
    (hs : ∀ s ∈ dsegs, '/' ∉ s) (hss : '/' ∉ stem) (hts : '/' ∉ tail) :
    extnameL (joinSegs (dsegs ++ [stem ++ '.' :: tail])) = '.' :: tail := by
  have hbs : '/' ∉ stem ++ '.' :: tail := by
    intro h
    rcases List.mem_append.1 h with h | h
    · exact hss h
    · rcases List.mem_cons.1 h with h | h
      · exact absurd h (by decide)
      · exact hts h
  have hb : stem ++ '.' :: tail ≠ [] := by simp
  have hpre :
      ((stem ++ '.' :: tail).reverse).takeWhile (fun c => ¬ (c = '.')) = tail.reverse := by
    have hrev : (stem ++ '.' :: tail).reverse = tail.reverse ++ '.' :: stem.reverse := by
      simp
    rw [hrev]
    rw [List.takeWhile_append_of_pos (by
      intro a ha
      have hne : a ≠ '.' := by
        intro e; subst e; exact htd (List.mem_reverse.mp ha)
      simpa using hne)]
    rw [List.takeWhile_cons]
    simp
  have hlb : (stem ++ '.' :: tail).length = stem.length + tail.length + 1 := by
    simp; omega
  have hstemlen : 0 < stem.length := List.length_pos.mpr hstem
  unfold extnameL
  rw [basenamePlain_shape dsegs _ hb hs hbs]
  simp only [hpre, List.length_reverse, List.reverse_reverse]
  rw [if_neg (by rw [hlb]; omega), if_neg (by rw [hlb]; omega), if_neg ?g3]
  case g3 =>
    intro h
    have hcl := congrArg List.length h
    rw [hlb] at hcl
    have h2 : (['.', '.'] : List Char).length = 2 := rfl
    rw [h2] at hcl
    have htaillen : 0 < tail.length := List.length_pos.mpr htail
    omega

theorem basenameExt_shape (dsegs : List Seg) (stem ext : Seg)
    (hstem : stem ≠ []) (hext : ext ≠ [])
    (hs : ∀ s ∈ dsegs, '/' ∉ s) (hbs : '/' ∉ stem ++ ext) :
    basenameExtL (joinSegs (dsegs ++ [stem ++ ext])) ext = stem := by
  have hb : stem ++ ext ≠ [] := by simp [hstem]
  have hlen : (stem ++ ext).length ≤ (joinSegs (dsegs ++ [stem ++ ext])).length :=
    last_length_le_joinSegs _ _
  have hstemlen : 0 < stem.length := List.length_pos.mpr hstem
  have hblen : (stem ++ ext).length = stem.length + ext.length := by simp
  have c1 : ext ≠ [] ∧ ext.length ≤ (joinSegs (dsegs ++ [stem ++ ext])).length := by
    refine ⟨hext, ?_⟩
    rw [hblen] at hlen
    omega
  have c2 : ¬ (ext = joinSegs (dsegs ++ [stem ++ ext])) := by
    intro h
    have := congrArg List.length h
    rw [hblen] at hlen
    omega
  unfold basenameExtL
  rw [basenamePlain_shape dsegs _ hb hs hbs, if_pos c1, if_neg c2]
  have c3 : stem ++ ext ≠ ext ∧ ext.isSuffixOf (stem ++ ext) := by
    constructor
    · intro h
      have := congrArg List.length h
      rw [hblen] at this
      omega
    · exact List.isSuffixOf_iff_suffix.mpr (List.suffix_append stem ext)
  show (if stem ++ ext ≠ ext ∧ ext.isSuffixOf (stem ++ ext) then
      (stem ++ ext).take ((stem ++ ext).length - ext.length)
    else stem ++ ext) = stem
  rw [if_pos c3, hblen]
  have : stem.length + ext.length - ext.length = stem.length := by omega
  rw [this]
  exact List.take_left' rfl

theorem dirname_shape_nil (b : Seg) (hb : b ≠ []) (hbs : '/' ∉ b) :
    dirnameL (joinSegs ([] ++ [b])) = ['.'] := by
  simp only [List.nil_append, joinSegs_singleton]
  unfold dirnameL
  rw [if_neg hb]
  have hroot : ¬ (b.head? = some '/') := by
    cases b with
    | nil => exact absurd rfl hb
    | cons c cs =>
      simp only [List.head?_cons, Option.some.injEq]
      rintro rfl
      exact hbs (List.mem_cons_self _ _)
  have hsegs : dropTrailingEmpties (splitSlash b) = [b] := by
    rw [splitSlash_no_slash b hbs]
    have := dropTrailingEmpties_concat [] b hb
    simpa using this
  rw [hsegs]
  simp [hroot]

theorem dirname_shape_cons (dsegs : List Seg) (b : Seg) (hne : dsegs ≠ [])
    (hplain : ∀ s ∈ dsegs, s ≠ [] ∧ '/' ∉ s) (hb : b ≠ []) (hbs : '/' ∉ b) :
    dirnameL (joinSegs (dsegs ++ [b])) = joinSegs dsegs := by
  have hmem : ∀ s ∈ dsegs ++ [b], '/' ∉ s := by
    intro s hs'
    rcases List.mem_append.1 hs' with h | h
    · exact (hplain s h).2
    · simp only [List.mem_singleton] at h; subst h; exact hbs
  have hp : joinSegs (dsegs ++ [b]) ≠ [] := by
    rw [joinSegs_append_last _ _ hne]
    simp
  unfold dirnameL
  rw [if_neg hp]
  have hsegs :
      dropTrailingEmpties (splitSlash (joinSegs (dsegs ++ [b]))) = dsegs ++ [b] := by
    rw [splitSlash_joinSegs _ (by simp) hmem, dropTrailingEmpties_concat _ _ hb]
  rw [hsegs]
  have hlen : ¬ ((dsegs ++ [b]).length ≤ 1) := by
    rcases dsegs with _ | ⟨s, t⟩
    · exact absurd rfl hne
    · simp
  rw [if_neg hlen, List.dropLast_concat]
  have hd : joinSegs dsegs ≠ [] :=
    joinSegs_ne_nil dsegs hne (fun s hs' => (hplain s hs').1)
  rw [if_neg hd]
  have hguard : ¬ (dsegs = [[], []]) := by
    intro h
    have : ([] : Seg) ∈ dsegs := by rw [h]; simp
    exact (hplain [] this).1 rfl
  rw [if_neg hguard]

theorem normStep_plain (allowUp : Bool) (acc : List Seg) (s : Seg) (h : PlainSeg s) :
    normStep allowUp acc s = s :: acc := by
  obtain ⟨h1, h2, h3, _⟩ := h
  unfold normStep
  rw [if_neg (by simp [h1, h2]), if_neg h3]

theorem foldl_normStep_plain (allowUp : Bool) (l : List Seg)
    (h : ∀ s ∈ l, PlainSeg s) :
    ∀ acc, l.foldl (normStep allowUp) acc = l.reverse ++ acc := by
  induction l with
  | nil => intro acc; simp
  | cons s t ih =>
    intro acc
    rw [List.foldl_cons, normStep_plain allowUp acc s (h s (by simp)),
      ih (fun x hx => h x (by simp [hx])) (s :: acc)]
    simp

theorem normCore_plain (allowUp : Bool) (l : List Seg) (h : ∀ s ∈ l, PlainSeg s) :
    normCore allowUp l = l := by
  unfold normCore
  rw [foldl_normStep_plain allowUp l h []]
  simp

theorem normCore_append_plain (allowUp : Bool) (l : List Seg) (c : Seg)
    (hc : PlainSeg c) : normCore allowUp (l ++ [c]) = normCore allowUp l ++ [c] := by
  unfold normCore
  rw [List.foldl_append]
  simp only [List.foldl_cons, List.foldl_nil]
  rw [normStep_plain allowUp _ c hc]
  simp

theorem joinSegs_concat_ne_nil (l : List Seg) (c : Seg) (hc : c ≠ []) :
    joinSegs (l ++ [c]) ≠ [] := by
  cases l with
  | nil => simpa [joinSegs_singleton] using hc
  | cons s t =>
    rw [joinSegs_append_last _ _ (by simp)]
    simp

theorem normalizeL_rel_eq (p : Path) (hp : p ≠ [])
    (habs : ¬ (p.head? = some '/')) (htr : ¬ (p.getLast? = some '/'))
    (hcore : joinSegs (normCore true (splitSlash p)) ≠ []) :
    normalizeL p = joinSegs (normCore true (splitSlash p)) := by
  unfold normalizeL
  rw [if_neg hp]
  simp only [decide_eq_false habs, decide_eq_false htr, Bool.not_false, if_neg hcore]
  simp

theorem normalizeL_abs_eq (p : Path) (hp : p ≠ [])
    (habs : p.head? = some '/') (htr : ¬ (p.getLast? = some '/'))
    (hcore : joinSegs (normCore false (splitSlash p)) ≠ []) :
    normalizeL p = '/' :: joinSegs (normCore false (splitSlash p)) := by
  unfold normalizeL
  rw [if_neg hp]
  simp only [decide_eq_true habs, decide_eq_false htr, Bool.not_true, if_neg hcore]
  simp

theorem normalize_plain (l : List Seg) (hl : l ≠ []) (h : ∀ s ∈ l, PlainSeg s) :
    normalizeL (joinSegs l) = joinSegs l := by
  have hnn : ∀ s ∈ l, s ≠ [] := fun s hs => (h s hs).1
  have hns : ∀ s ∈ l, '/' ∉ s := fun s hs => (h s hs).2.2.2
  have hp : joinSegs l ≠ [] := joinSegs_ne_nil l hl hnn
  have habs : ¬ ((joinSegs l).head? = some '/') := by
    obtain ⟨s, t, hlst⟩ : ∃ s t, l = s :: t := by
      cases l with
      | nil => exact absurd rfl hl
      | cons a b => exact ⟨a, b, rfl⟩
    subst hlst
    rw [joinSegs_head? s t (hnn s (by simp))]
    cases s with
    | nil => exact absurd rfl (hnn [] (by simp))
    | cons c s'' =>
      simp only [List.head?_cons, Option.some.injEq]
      rintro rfl
      exact hns ('/' :: s'') (by simp) (List.mem_cons_self _ _)
  have htr : ¬ ((joinSegs l).getLast? = some '/') := by
    obtain ⟨l', b, hlb⟩ : ∃ l' b, l = l' ++ [b] := by
      rcases List.eq_nil_or_concat l with h' | ⟨l', b, h'⟩
      · exact absurd h' hl
      · exact ⟨l', b, by simpa using h'⟩
    subst hlb
    rw [joinSegs_getLast? l' b (hnn b (by simp))]
    intro hEq
    exact hns b (by simp) (List.mem_of_mem_getLast? (by rw [hEq]; simp))
  rw [normalizeL_rel_eq (joinSegs l) hp habs htr]
  · rw [splitSlash_joinSegs l hl hns, normCore_plain true l h]
  · rw [splitSlash_joinSegs l hl hns, normCore_plain true l h]
    exact hp

theorem joinL_nil_plain (c : Seg) (h : PlainSeg c) : joinL [] c = c := by
  unfold joinL
  rw [if_pos rfl]
  have := normalize_plain [c] (by simp)
    (by intro s hs; simp only [List.mem_singleton] at hs; subst hs; exact h)
  simpa [joinSegs_singleton] using this

theorem joinL_dot_plain (s : Seg) (h : PlainSeg s) : joinL ['.'] s = s := by
  unfold joinL
  rw [if_neg (by simp), if_neg h.1]
  have hsplit : splitSlash (['.'] ++ '/' :: s) = [['.'], s] := by
    rw [splitSlash_append, splitSlash_no_slash ['.'] (by decide),
      splitSlash_no_slash s h.2.2.2]
    rfl
  have hcore : normCore true [['.'], s] = [s] := by
    unfold normCore
    rw [List.foldl_cons, show normStep true [] ['.'] = [] from by unfold normStep; simp,
      List.foldl_cons, normStep_plain true [] s h, List.foldl_nil]
    rfl
  have hp : (['.'] ++ '/' :: s : List Char) ≠ [] := by simp
  have habs : ¬ ((['.'] ++ '/' :: s : List Char).head? = some '/') := by simp
  have htr : ¬ ((['.'] ++ '/' :: s : List Char).getLast? = some '/') := by
    rw [show (['.'] ++ '/' :: s : List Char) = ['.', '/'] ++ s from rfl,
      List.getLast?_append_of_ne_nil _ h.1]
    intro hEq
    exact h.2.2.2 (List.mem_of_mem_getLast? (by rw [hEq]; simp))
  have hres : normalizeL (['.'] ++ '/' :: s) = joinSegs [s] := by
    rw [normalizeL_rel_eq _ hp habs htr] <;> rw [hsplit, hcore]
    exact joinSegs_ne_nil [s] (by simp) (by intro x hx; simp at hx; subst hx; exact h.1)
  simpa [joinSegs_singleton] using hres

theorem joinL_joinSegs_plain (dsegs : List Seg) (stem : Seg) (hd : dsegs ≠ [])
    (hpl : ∀ s ∈ dsegs, PlainSeg s) (hstem : PlainSeg stem) :
    joinL (joinSegs dsegs) stem = joinSegs (dsegs ++ [stem]) := by
  unfold joinL
  have h1 : joinSegs dsegs ≠ [] := joinSegs_ne_nil dsegs hd (fun s hs => (hpl s hs).1)
  rw [if_neg h1, if_neg hstem.1, ← joinSegs_append_last dsegs stem hd]
  refine normalize_plain (dsegs ++ [stem]) (by simp) ?_
  intro s hs
  rcases List.mem_append.1 hs with h | h
  · exact hpl s h
  · simp only [List.mem_singleton] at h; subst h; exact hstem

theorem joinDirStem (dsegs : List Seg) (stem b : Seg) (hd : ∀ s ∈ dsegs, PlainSeg s)
    (hstem : PlainSeg stem) (hb : b ≠ []) (hbs : '/' ∉ b) :
    joinL (dirnameL (joinSegs (dsegs ++ [b]))) stem ++ ".js".data =
      joinSegs (dsegs ++ [stem ++ ".js".data]) := by
  cases dsegs with
  | nil =>
    rw [dirname_shape_nil b hb hbs, joinL_dot_plain stem hstem]
    simp [joinSegs_singleton]
  | cons d0 dt =>
    rw [dirname_shape_cons (d0 :: dt) b (by simp)
        (fun s hs => ⟨(hd s hs).1, (hd s hs).2.2.2⟩) hb hbs,
      joinL_joinSegs_plain (d0 :: dt) stem (by simp) hd hstem,
      joinSegs_last_absorb]

theorem outputPath_plain_shape (dsegs : List Seg) (stem tail : Seg)
    (hd : ∀ s ∈ dsegs, PlainSeg s) (hstem : PlainSeg stem)
    (htail : tail ≠ []) (htd : '.' ∉ tail) (hts : '/' ∉ tail)
    (hnc : endsWithL (joinSegs (dsegs ++ [stem ++ '.' :: tail])) ".coffee.md".data
      = false) :
    outputPathL (joinSegs (dsegs ++ [stem ++ '.' :: tail])) =
      joinSegs (dsegs ++ [stem ++ ".js".data]) := by
  have hdss : ∀ s ∈ dsegs, '/' ∉ s := fun s hs => (hd s hs).2.2.2
  have hbs : '/' ∉ stem ++ '.' :: tail := by
    intro hmem
    rcases List.mem_append.1 hmem with hmem | hmem
    · exact hstem.2.2.2 hmem
    · rcases List.mem_cons.1 hmem with hmem | hmem
      · exact absurd hmem (by decide)
      · exact hts hmem
  simp only [outputPathL, hnc, Bool.false_eq_true, if_false]
  rw [extname_shape dsegs stem tail hstem.1 htail htd hdss hstem.2.2.2 hts,
    basenameExt_shape dsegs stem ('.' :: tail) hstem.1 (by simp) hdss hbs]
  exact joinDirStem dsegs stem (stem ++ '.' :: tail) hd hstem (by simp) hbs

theorem outputPath_compound_shape (dsegs : List Seg) (stem : Seg)
    (hd : ∀ s ∈ dsegs, PlainSeg s) (hstem : PlainSeg stem) :
    outputPathL (joinSegs (dsegs ++ [stem ++ ".coffee.md".data])) =
      joinSegs (dsegs ++ [stem ++ ".js".data]) := by
  have hdss : ∀ s ∈ dsegs, '/' ∉ s := fun s hs => (hd s hs).2.2.2
  have hbs : '/' ∉ stem ++ ".coffee.md".data := by
    intro hmem
    rcases List.mem_append.1 hmem with hmem | hmem
    · exact hstem.2.2.2 hmem
    · exact absurd hmem (by decide)
  have hsuf :
      endsWithL (joinSegs (dsegs ++ [stem ++ ".coffee.md".data])) ".coffee.md".data
        = true := by
    unfold endsWithL
    apply List.isSuffixOf_iff_suffix.mpr
    cases dsegs with
    | nil =>
      simp only [List.nil_append, joinSegs_singleton]
      exact List.suffix_append stem _
    | cons d0 dt =>
      rw [joinSegs_append_last _ _ (by simp)]
      rw [show joinSegs (d0 :: dt) ++ '/' :: (stem ++ ".coffee.md".data) =
        (joinSegs (d0 :: dt) ++ '/' :: stem) ++ ".coffee.md".data from by simp]
      exact List.suffix_append _ _
  simp only [outputPathL, hsuf, if_true]
  rw [basenameExt_shape dsegs stem ".coffee.md".data hstem.1 (by decide) hdss hbs]
  exact joinDirStem dsegs stem (stem ++ ".coffee.md".data) hd hstem (by simp) hbs

theorem suffix_getLast?_eq (p suf : List Char) (hs : suf ≠ [])
    (h : endsWithL p suf = true) : p.getLast? = suf.getLast? := by
  obtain ⟨t, ht⟩ := List.isSuffixOf_iff_suffix.mp h
  rw [← ht]
  exact List.getLast?_append_of_ne_nil _ hs

theorem ends_js_not_compound (dsegs : List Seg) (stem : Seg) :
    endsWithL (joinSegs (dsegs ++ [stem ++ ".js".data])) ".coffee.md".data = false := by
  by_contra hne
  have h : endsWithL (joinSegs (dsegs ++ [stem ++ ".js".data])) ".coffee.md".data
      = true := by
    cases hv : endsWithL (joinSegs (dsegs ++ [stem ++ ".js".data])) ".coffee.md".data
    · exact absurd hv hne
    · rfl
  have h1 := suffix_getLast?_eq _ _ (by decide) h
  have h2 : (joinSegs (dsegs ++ [stem ++ ".js".data])).getLast? = some 's' := by
    rw [joinSegs_getLast? _ _ (by simp)]
    rw [show stem ++ ".js".data = (stem ++ ['.', 'j']) ++ ['s'] from by simp]
    simp
  rw [h2] at h1
  exact absurd h1 (by decide)

theorem joinL_cons_plain_decomp (d : Path) (c : Seg) (hd : d ≠ []) (hc : PlainSeg c) :
    joinL d c =
      (if d.head? = some '/'
        then '/' :: joinSegs (normCore false (splitSlash d) ++ [c])
        else joinSegs (normCore true (splitSlash d) ++ [c])) := by
  unfold joinL
  rw [if_neg hd, if_neg hc.1]
  have hsplit : splitSlash (d ++ '/' :: c) = splitSlash d ++ [c] := by
    rw [splitSlash_append, splitSlash_no_slash c hc.2.2.2]
  have hp : d ++ '/' :: c ≠ [] := by simp
  have hhead : (d ++ '/' :: c).head? = d.head? := List.head?_append_of_ne_nil _ hd
  have htr : ¬ ((d ++ '/' :: c).getLast? = some '/') := by
    rw [show d ++ '/' :: c = (d ++ ['/']) ++ c from by simp,
      List.getLast?_append_of_ne_nil _ hc.1]
    intro hEq
    exact hc.2.2.2 (List.mem_of_mem_getLast? (by rw [hEq]; simp))
  by_cases habs : d.head? = some '/'
  · rw [if_pos habs]
    rw [normalizeL_abs_eq _ hp (by rw [hhead]; exact habs) htr
      (by rw [hsplit, normCore_append_plain false _ c hc]
          exact joinSegs_concat_ne_nil _ c hc.1)]
    rw [hsplit, normCore_append_plain false _ c hc]
  · rw [if_neg habs]
    rw [normalizeL_rel_eq _ hp (by rw [hhead]; exact habs) htr
      (by rw [hsplit, normCore_append_plain true _ c hc]
          exact joinSegs_concat_ne_nil _ c hc.1)]
    rw [hsplit, normCore_append_plain true _ c hc]

theorem joinSegs_concat_inj (N : List Seg) (c₁ c₂ : Seg)
    (h : joinSegs (N ++ [c₁]) = joinSegs (N ++ [c₂])) : c₁ = c₂ := by
  cases N with
  | nil => simpa [joinSegs_singleton] using h
  | cons s t =>
    rw [joinSegs_append_last _ _ (by simp), joinSegs_append_last _ _ (by simp)] at h
    have h2 := List.append_cancel_left h
    simpa using h2

theorem joinL_plain_inj (d : Path) (c₁ c₂ : Seg) (h₁ : PlainSeg c₁) (h₂ : PlainSeg c₂)
    (he : joinL d c₁ = joinL d c₂) : c₁ = c₂ := by
  by_cases hd : d = []
  · subst hd; rwa [joinL_nil_plain c₁ h₁, joinL_nil_plain c₂ h₂] at he
  · rw [joinL_cons_plain_decomp d c₁ hd h₁, joinL_cons_plain_decomp d c₂ hd h₂] at he
    by_cases habs : d.head? = some '/'
    · rw [if_pos habs, if_pos habs] at he
      simp only [List.cons.injEq, true_and] at he
      exact joinSegs_concat_inj _ _ _ he
    · rw [if_neg habs, if_neg habs] at he
      exact joinSegs_concat_inj _ _ _ he

theorem count_map_joinL (d : Path) (l : List Seg) (hp : ∀ x ∈ l, PlainSeg x)
    (hnd : l.Nodup) (c : Seg) (hc : c ∈ l) :
    (l.map (fun x => joinL d x)).count (joinL d c) = 1 := by
  induction l with
  | nil => cases hc
  | cons a t ih =>
    rw [List.map_cons, List.count_cons]
    rcases List.mem_cons.1 hc with rfl | hct
    · have hnotin : joinL d c ∉ t.map (fun x => joinL d x) := by
        intro hmem
        obtain ⟨x, hx, hxe⟩ := List.mem_map.1 hmem
        have hxc : x = c :=
          joinL_plain_inj d x c (hp x (by simp [hx])) (hp c (by simp)) hxe
        subst hxc
        exact (List.nodup_cons.1 hnd).1 hx
      rw [List.count_eq_zero.2 hnotin]
      simp
    · have hac : ¬ (joinL d c = joinL d a) := by
        intro hEq
        have hca : c = a :=
          joinL_plain_inj d c a (hp c (by simp [hct])) (hp a (by simp)) hEq
        subst hca
        exact (List.nodup_cons.1 hnd).1 hct
      rw [ih (fun x hx => hp x (by simp [hx])) (List.nodup_cons.1 hnd).2 hct]
      have hac' : ¬ (joinL d a = joinL d c) := fun hEq => hac hEq.symm
      simp [hac']

/-! ## One-step unfolding lemmas for the traversal loop -/

theorem runLoop_nil (cfg : Config) (fs : FS) (cb : Bool) (fuel : Nat)
    (errors : List Err) (events : List Event) :
    runLoop cfg fs cb (fuel + 1) [] errors events =
      .done (if cb then some errors else none) errors events := rfl

theorem runLoop_stat_error (cfg : Config) (fs : FS) (cb : Bool) (fuel : Nat)
    (p : Path) (rest : List Path) (errors : List Err) (events : List Event)
    (e : Err) (h : fs.stat p = .error e) :
    runLoop cfg fs cb (fuel + 1) (p :: rest) errors events =
      .stalled (errors ++ [e]) (events ++ [.statCall p]) rest := by
  simp only [runLoop, h]

theorem runLoop_dir_ok (cfg : Config) (fs : FS) (cb : Bool) (fuel : Nat)
    (d : Path) (rest : List Path) (errors : List Err) (events : List Event)
    (children : List Path) (hstat : fs.stat d = .ok true)
    (hdir : fs.readdir d = .ok children) :
    runLoop cfg fs cb (fuel + 1) (d :: rest) errors events =
      runLoop cfg fs cb fuel
        (((children.filter (extFilter cfg.modernizeJS)).map (fun c => joinL d c)) ++ rest)
        errors (events ++ [.statCall d, .readdirCall d]) := by
  simp only [runLoop, hstat, hdir, if_true, List.append_assoc, List.singleton_append]

theorem runLoop_dir_error (cfg : Config) (fs : FS) (cb : Bool) (fuel : Nat)
    (d : Path) (rest : List Path) (errors : List Err) (events : List Event)
    (e : Err) (hstat : fs.stat d = .ok true) (hdir : fs.readdir d = .error e) :
    runLoop cfg fs cb (fuel + 1) (d :: rest) errors events =
      runLoop cfg fs cb fuel rest (errors ++ [e])
        (events ++ [.statCall d, .readdirCall d]) := by
  simp only [runLoop, hstat, hdir, if_true, List.append_assoc, List.singleton_append]

theorem runLoop_file_read_error (cfg : Config) (fs : FS) (cb : Bool) (fuel : Nat)
    (f : Path) (rest : List Path) (errors : List Err) (events : List Event)
    (e : Err) (hstat : fs.stat f = .ok false) (hread : fs.readFile f = .error e) :
    runLoop cfg fs cb (fuel + 1) (f :: rest) errors events =
      runLoop cfg fs cb fuel rest (errors ++ [e])
        (events ++ [.statCall f, .log (progressLine f (outputPathL f)), .readCall f]) := by
  simp only [runLoop, hstat, hread, if_false, List.append_assoc, List.cons_append,
    List.singleton_append, Bool.false_eq_true, List.nil_append]

theorem runLoop_file_patch (cfg : Config) (fs : FS) (cb : Bool) (fuel : Nat)
    (f : Path) (rest : List Path) (errors : List Err) (events : List Event)
    (data m : Str) (hstat : fs.stat f = .ok false) (hread : fs.readFile f = .ok data)
    (heng : cfg.engine f data = .patch m) :
    runLoop cfg fs cb (fuel + 1) (f :: rest) errors events =
      .fatalPatch errors
        (events ++ [.statCall f, .log (progressLine f (outputPathL f)), .readCall f,
          .convertCall f data, .stderrLine (patchLine f m)]) rest := by
  simp only [runLoop, hstat, hread, heng, if_false, List.append_assoc, List.cons_append,
    List.singleton_append, Bool.false_eq_true, List.nil_append]

theorem runLoop_file_throw (cfg : Config) (fs : FS) (cb : Bool) (fuel : Nat)
    (f : Path) (rest : List Path) (errors : List Err) (events : List Event)
    (data : Str) (e : Err) (hstat : fs.stat f = .ok false)
    (hread : fs.readFile f = .ok data) (heng : cfg.engine f data = .err e) :
    runLoop cfg fs cb (fuel + 1) (f :: rest) errors events =
      .fatalThrow e errors
        (events ++ [.statCall f, .log (progressLine f (outputPathL f)), .readCall f,
          .convertCall f data]) rest := by
  simp only [runLoop, hstat, hread, heng, if_false, List.append_assoc, List.cons_append,
    List.singleton_append, Bool.false_eq_true, List.nil_append]

theorem runLoop_file_write_ok (cfg : Config) (fs : FS) (cb : Bool) (fuel : Nat)
    (f : Path) (rest : List Path) (errors : List Err) (events : List Event)
    (data code : Str) (hstat : fs.stat f = .ok false)
    (hread : fs.readFile f = .ok data) (heng : cfg.engine f data = .ok code)
    (hw : fs.writeFile (outputPathL f) code = none) :
    runLoop cfg fs cb (fuel + 1) (f :: rest) errors events =
      runLoop cfg fs cb fuel rest errors
        (events ++ [.statCall f, .log (progressLine f (outputPathL f)), .readCall f,
          .convertCall f data, .writeCall (outputPathL f) code]) := by
  simp only [runLoop, hstat, hread, heng, hw, if_false, List.append_assoc,
    List.cons_append, List.singleton_append, Bool.false_eq_true, List.nil_append]

theorem runLoop_file_write_error (cfg : Config) (fs : FS) (cb : Bool) (fuel : Nat)
    (f : Path) (rest : List Path) (errors : List Err) (events : List Event)
    (data code : Str) (e : Err) (hstat : fs.stat f = .ok false)
    (hread : fs.readFile f = .ok data) (heng : cfg.engine f data = .ok code)
    (hw : fs.writeFile (outputPathL f) code = some e) :
    runLoop cfg fs cb (fuel + 1) (f :: rest) errors events =
      runLoop cfg fs cb fuel rest (errors ++ [e])
        (events ++ [.statCall f, .log (progressLine f (outputPathL f)), .readCall f,
          .convertCall f data, .writeCall (outputPathL f) code]) := by
  simp only [runLoop, hstat, hread, heng, hw, if_false, List.append_assoc,
    List.cons_append, List.singleton_append, Bool.false_eq_true, List.nil_append]

/-! ## Claim theorems -/

/-- C1: the claim says a stat failure is non-fatal: the error is
appended and the traversal continues, processing every later work item
and completing with the accumulated errors. The code
(`processPath`, lines 116-125) pushes the error but — unlike every other
error branch — never calls `processNext`, so the run stalls: here
`a.coffee` is converted and written, the stat failure on `b.coffee` is
recorded, and then `c.coffee` is never classified, no completion is
delivered, and the run does not finish. -/
theorem decaf_C1_stall_on_stat_error :
    (runWithPaths cfgFix fsC1
      ["a.coffee".data, "b.coffee".data, "c.coffee".data] true 5).isStalled = true ∧
    (runWithPaths cfgFix fsC1
      ["a.coffee".data, "b.coffee".data, "c.coffee".data] true 5).errorsOf
      = [errStatB] ∧
    Event.writeCall "a.js".data "x = 1".data ∈
      (runWithPaths cfgFix fsC1
        ["a.coffee".data, "b.coffee".data, "c.coffee".data] true 5).eventsOf ∧
    Event.statCall "c.coffee".data ∉
      (runWithPaths cfgFix fsC1
        ["a.coffee".data, "b.coffee".data, "c.coffee".data] true 5).eventsOf ∧
    (runWithPaths cfgFix fsC1
      ["a.coffee".data, "b.coffee".data, "c.coffee".data] true 5).deliveredOf
      = none := by
  decide

/-- C2, counterexample: the claim says the traversal never descends
below an immediate child of a user-supplied directory. But a child whose
name passes the extension filter is re-queued and, when it is itself a
directory (here `D/sub.coffee`), it is expanded in turn, so the
grandchild path `D/sub.coffee/x.coffee` — strictly below the immediate
child `D/sub.coffee` of `D` — is classified, converted and written. -/
theorem decaf_C2_counterexample :
    "D/sub.coffee".data = joinL "D".data "sub.coffee".data ∧
    "D/sub.coffee/x.coffee".data = joinL (joinL "D".data "sub.coffee".data)
      "x.coffee".data ∧
    Event.statCall "D/sub.coffee/x.coffee".data ∈
      (runWithPaths cfgFix fsC2 ["D".data] true 5).eventsOf ∧
    Event.writeCall "D/sub.coffee/x.js".data "q".data ∈
      (runWithPaths cfgFix fsC2 ["D".data] true 5).eventsOf ∧
    (runWithPaths cfgFix fsC2 ["D".data] true 5).isDone = true := by
  decide

/-- C4, counterexample: the claim reads the output path as the directory
joined with the base name with the detected extension stripped, plus
`.js`. When the base name equals the detected extension (a file named
exactly `.coffee.md`), Node's `basename(path, ext)` does not strip, so
the code produces `x/.coffee.md.js` while the claim's reading produces
`x.js`. -/
theorem decaf_C4_counterexample :
    outputPathL "x/.coffee.md".data ≠ resolvePathClaim "x/.coffee.md".data ∧
    outputPathL "x/.coffee.md".data = "x/.coffee.md.js".data ∧
    resolvePathClaim "x/.coffee.md".data = "x.js".data := by
  decide

/-- C9, counterexample: the claim says every path ending in `.js` is a
fixed point of the output-path computation. `join`/`dirname` normalize
the path, so the `.js` path `./a.js` is mapped to `a.js`, not to
itself. -/
theorem decaf_C9_counterexample :
    outputPathL "./a.js".data ≠ "./a.js".data ∧
    outputPathL "./a.js".data = "a.js".data := by
  decide

/-- C2 (amended): when the traversal expands a directory, exactly the
children whose names pass the active extension filter are re-queued (at
the front, joined onto the directory path); children failing the filter
— including subdirectories with non-matching names — are never
re-queued. A filter-matching child that is itself a directory is
descended into like any other work item, so the non-descent guarantee
holds only for children failing the filter. -/
theorem decaf_C2_expansion_filter (cfg : Config) (fs : FS) (cb : Bool) (fuel : Nat)
    (d : Path) (rest : List Path) (errors : List Err) (events : List Event)
    (children : List Path) (hstat : fs.stat d = .ok true)
    (hdir : fs.readdir d = .ok children) :
    runLoop cfg fs cb (fuel + 1) (d :: rest) errors events =
      runLoop cfg fs cb fuel
        (((children.filter (extFilter cfg.modernizeJS)).map (fun c => joinL d c)) ++ rest)
        errors (events ++ [.statCall d, .readdirCall d]) ∧
    (∀ q ∈ (children.filter (extFilter cfg.modernizeJS)).map (fun c => joinL d c),
      ∃ c ∈ children, extFilter cfg.modernizeJS c = true ∧ q = joinL d c) := by
  refine ⟨runLoop_dir_ok cfg fs cb fuel d rest errors events children hstat hdir, ?_⟩
  intro q hq
  obtain ⟨c, hc, rfl⟩ := List.mem_map.1 hq
  have hcf := List.mem_filter.1 hc
  exact ⟨c, hcf.1, hcf.2, rfl⟩

/-- C2 witness: the expansion step for directory `D` of the fixture. -/
theorem decaf_C2_witness :
    runLoop cfgFix fsC2 true 2 ["D".data] [] [] =
      runLoop cfgFix fsC2 true 1
        (((["sub.coffee".data].filter (extFilter cfgFix.modernizeJS)).map
          (fun c => joinL "D".data c)) ++ []) []
        ([] ++ [.statCall "D".data, .readdirCall "D".data]) ∧
    (∀ q ∈ (["sub.coffee".data].filter (extFilter cfgFix.modernizeJS)).map
        (fun c => joinL "D".data c),
      ∃ c ∈ ["sub.coffee".data], extFilter cfgFix.modernizeJS c = true ∧
        q = joinL "D".data c) :=
  decaf_C2_expansion_filter cfgFix fsC2 true 1 "D".data [] [] []
    ["sub.coffee".data] rfl rfl

/-- C3: a patch-detectable engine failure is surfaced immediately on
stderr and the whole run terminates with the remaining work list
untouched — no later item is classified or processed; a non-patch
engine error is re-thrown, also terminating the run; in both cases the
accumulated error list is left unchanged. -/
theorem decaf_C3_fatal_conversion (cfg : Config) (fs : FS) (cb : Bool) (fuel : Nat)
    (f : Path) (rest : List Path) (errors : List Err) (events : List Event)
    (data : Str) (hstat : fs.stat f = .ok false) (hread : fs.readFile f = .ok data) :
    (∀ m, cfg.engine f data = .patch m →
      runLoop cfg fs cb (fuel + 1) (f :: rest) errors events =
        .fatalPatch errors
          (events ++ [.statCall f, .log (progressLine f (outputPathL f)), .readCall f,
            .convertCall f data, .stderrLine (patchLine f m)]) rest) ∧
    (∀ e, cfg.engine f data = .err e →
      runLoop cfg fs cb (fuel + 1) (f :: rest) errors events =
        .fatalThrow e errors
          (events ++ [.statCall f, .log (progressLine f (outputPathL f)), .readCall f,
            .convertCall f data]) rest) := by
  constructor
  · intro m heng
    exact runLoop_file_patch cfg fs cb fuel f rest errors events data m hstat hread heng
  · intro e heng
    exact runLoop_file_throw cfg fs cb fuel f rest errors events data e hstat hread heng

/-- C3 witness: the first file of the fixture triggers a patch error;
the run is fatal with `z.coffee` still pending untouched. -/
theorem decaf_C3_witness :
    runLoop cfgFix fsC3 true 3 ["p.coffee".data, "z.coffee".data] [] [] =
      .fatalPatch []
        ([] ++ [.statCall "p.coffee".data,
          .log (progressLine "p.coffee".data (outputPathL "p.coffee".data)),
          .readCall "p.coffee".data, .convertCall "p.coffee".data "PATCH".data,
          .stderrLine (patchLine "p.coffee".data "bad".data)]) ["z.coffee".data] :=
  (decaf_C3_fatal_conversion cfgFix fsC3 true 2 "p.coffee".data ["z.coffee".data] [] []
    "PATCH".data rfl rfl).1 "bad".data rfl

/-- C5: directory children are inserted at the front of the work list,
in listing order, ahead of every item previously queued behind the
directory; concretely, with `D` containing `x.coffee`, `y.coffee` (and
an ineligible `README`) queued before top-level `z.coffee`, the
classification order is `D`, `D/x.coffee`, `D/y.coffee`, `z.coffee`. -/
theorem decaf_C5_front_insertion :
    (∀ (cfg : Config) (fs : FS) (cb : Bool) (fuel : Nat) (d : Path)
      (rest : List Path) (errors : List Err) (events : List Event)
      (children : List Path),
      fs.stat d = .ok true → fs.readdir d = .ok children →
      runLoop cfg fs cb (fuel + 1) (d :: rest) errors events =
        runLoop cfg fs cb fuel
          (((children.filter (extFilter cfg.modernizeJS)).map (fun c => joinL d c))
            ++ rest) errors (events ++ [.statCall d, .readdirCall d])) ∧
    classifiedOf (runWithPaths cfgFix fsC5 ["D".data, "z.coffee".data] true 9) =
      ["D".data, "D/x.coffee".data, "D/y.coffee".data, "z.coffee".data] := by
  constructor
  · intro cfg fs cb fuel d rest errors events children hstat hdir
    exact runLoop_dir_ok cfg fs cb fuel d rest errors events children hstat hdir
  · decide

/-- C5 witness: the front-insertion step instantiated on the fixture. -/
theorem decaf_C5_witness :
    runLoop cfgFix fsC5 true 9 ["D".data, "z.coffee".data] [] [] =
      runLoop cfgFix fsC5 true 8
        (((["x.coffee".data, "y.coffee".data, "README".data].filter
          (extFilter cfgFix.modernizeJS)).map (fun c => joinL "D".data c))
          ++ ["z.coffee".data]) []
        ([] ++ [.statCall "D".data, .readdirCall "D".data]) :=
  decaf_C5_front_insertion.1 cfgFix fsC5 true 8 "D".data ["z.coffee".data] [] []
    ["x.coffee".data, "y.coffee".data, "README".data] rfl rfl

/-- C6: when a directory is expanded, the generated conversion jobs are
exactly the filter-matching children joined onto the directory path;
for real directory listings (distinct, plain child names) every
eligible child appears exactly once among the jobs, and no ineligible
child ever appears. -/
theorem decaf_C6_jobs_exactly_once (cfg : Config) (fs : FS) (cb : Bool) (fuel : Nat)
    (d : Path) (rest : List Path) (errors : List Err) (events : List Event)
    (children : List Path) (hstat : fs.stat d = .ok true)
    (hdir : fs.readdir d = .ok children)
    (hplain : ∀ c ∈ children, PlainSeg c) (hnd : children.Nodup) :
    runLoop cfg fs cb (fuel + 1) (d :: rest) errors events =
      runLoop cfg fs cb fuel
        (((children.filter (extFilter cfg.modernizeJS)).map (fun c => joinL d c)) ++ rest)
        errors (events ++ [.statCall d, .readdirCall d]) ∧
    (∀ c ∈ children, extFilter cfg.modernizeJS c = true →
      ((children.filter (extFilter cfg.modernizeJS)).map (fun c => joinL d c)).count
        (joinL d c) = 1) ∧
    (∀ c ∈ children, extFilter cfg.modernizeJS c = false →
      joinL d c ∉
        (children.filter (extFilter cfg.modernizeJS)).map (fun c => joinL d c)) := by
  refine ⟨runLoop_dir_ok cfg fs cb fuel d rest errors events children hstat hdir, ?_, ?_⟩
  · intro c hc hf
    exact count_map_joinL d (children.filter (extFilter cfg.modernizeJS))
      (fun x hx => hplain x (List.mem_filter.1 hx).1)
      (hnd.filter _) c (List.mem_filter.2 ⟨hc, hf⟩)
  · intro c hc hf hmem
    obtain ⟨x, hx, hxe⟩ := List.mem_map.1 hmem
    obtain ⟨hx1, hx2⟩ := List.mem_filter.1 hx
    have hxc : x = c := joinL_plain_inj d x c (hplain x hx1) (hplain c hc) hxe
    subst hxc
    rw [hf] at hx2
    exact Bool.false_ne_true hx2

/-- C6 witness: the job multiset for the fixture directory `D`. -/
theorem decaf_C6_witness :
    runLoop cfgFix fsC5 true 2 ["D".data] [] [] =
      runLoop cfgFix fsC5 true 1
        (((["x.coffee".data, "y.coffee".data, "README".data].filter
          (extFilter cfgFix.modernizeJS)).map (fun c => joinL "D".data c)) ++ []) []
        ([] ++ [.statCall "D".data, .readdirCall "D".data]) ∧
    (∀ c ∈ ["x.coffee".data, "y.coffee".data, "README".data],
      extFilter cfgFix.modernizeJS c = true →
      ((["x.coffee".data, "y.coffee".data, "README".data].filter
        (extFilter cfgFix.modernizeJS)).map (fun c => joinL "D".data c)).count
        (joinL "D".data c) = 1) ∧
    (∀ c ∈ ["x.coffee".data, "y.coffee".data, "README".data],
      extFilter cfgFix.modernizeJS c = false →
      joinL "D".data c ∉
        (["x.coffee".data, "y.coffee".data, "README".data].filter
          (extFilter cfgFix.modernizeJS)).map (fun c => joinL "D".data c)) :=
  decaf_C6_jobs_exactly_once cfgFix fsC5 true 1 "D".data [] [] []
    ["x.coffee".data, "y.coffee".data, "README".data] rfl rfl
    (by decide) (by decide)

/-- C4 (amended): over normal-form source paths — a `/`-joined sequence
of plain segments — the output path is the directory joined with the
base name with the detected extension stripped, plus `.js`, where
stripping is Node's `basename(path, ext)`: the suffix is removed only
when the base name properly extends it (a base name equal to the
detected extension is kept whole, see the counterexample). The detected
extension is the whole `.coffee.md` compound when the path ends with
it, and the last extension otherwise; in both cases the result replaces
that extension with `.js`. The resolver is a pure total function by
construction. -/
theorem decaf_C4_resolve (dsegs : List Seg) (stem tail : Seg)
    (hd : ∀ s ∈ dsegs, PlainSeg s) (hstem : PlainSeg stem) :
    (outputPathL (joinSegs (dsegs ++ [stem ++ ".coffee.md".data])) =
      joinSegs (dsegs ++ [stem ++ ".js".data])) ∧
    (tail ≠ [] → '.' ∉ tail → '/' ∉ tail →
      endsWithL (joinSegs (dsegs ++ [stem ++ '.' :: tail])) ".coffee.md".data = false →
      outputPathL (joinSegs (dsegs ++ [stem ++ '.' :: tail])) =
        joinSegs (dsegs ++ [stem ++ ".js".data])) := by
  constructor
  · exact outputPath_compound_shape dsegs stem hd hstem
  · intro h1 h2 h3 h4
    exact outputPath_plain_shape dsegs stem tail hd hstem h1 h2 h3 h4

/-- C4 witness: the claim's own examples, `a/b/Foo.coffee.md → a/b/Foo.js`
and `a/b/Foo.coffee → a/b/Foo.js`. -/
theorem decaf_C4_witness :
    (outputPathL (joinSegs (["a".data, "b".data] ++ ["Foo".data ++ ".coffee.md".data])) =
      joinSegs (["a".data, "b".data] ++ ["Foo".data ++ ".js".data])) ∧
    (outputPathL (joinSegs (["a".data, "b".data] ++ ["Foo".data ++ '.' :: "coffee".data])) =
      joinSegs (["a".data, "b".data] ++ ["Foo".data ++ ".js".data])) ∧
    joinSegs (["a".data, "b".data] ++ ["Foo".data ++ ".coffee.md".data]) =
      "a/b/Foo.coffee.md".data ∧
    joinSegs (["a".data, "b".data] ++ ["Foo".data ++ '.' :: "coffee".data]) =
      "a/b/Foo.coffee".data ∧
    joinSegs (["a".data, "b".data] ++ ["Foo".data ++ ".js".data]) = "a/b/Foo.js".data :=
  ⟨(decaf_C4_resolve ["a".data, "b".data] "Foo".data "coffee".data
      (by decide) (by decide)).1,
   (decaf_C4_resolve ["a".data, "b".data] "Foo".data "coffee".data
      (by decide) (by decide)).2 (by decide) (by decide) (by decide) (by decide),
   by decide, by decide, by decide⟩

/-- C9 (amended): over normal-form source paths (a `/`-joined sequence
of plain segments) whose base name is `stem ++ ".js"` with `stem` a
plain segment, the output-path computation is the identity, so
modernize mode writes the conversion result back over the input file in
place; a non-normalized `.js` path is instead mapped to its normalized
form (see the counterexample). -/
theorem decaf_C9_inplace (dsegs : List Seg) (stem : Seg)
    (hd : ∀ s ∈ dsegs, PlainSeg s) (hstem : PlainSeg stem) :
    outputPathL (joinSegs (dsegs ++ [stem ++ ".js".data])) =
      joinSegs (dsegs ++ [stem ++ ".js".data]) := by
  have h := outputPath_plain_shape dsegs stem ['j', 's'] hd hstem (by decide)
    (by decide) (by decide) (ends_js_not_compound dsegs stem)
  exact h

/-- C9 witness: `src/a.js` is mapped to itself. -/
theorem decaf_C9_witness :
    outputPathL (joinSegs (["src".data] ++ ["a".data ++ ".js".data])) =
      joinSegs (["src".data] ++ ["a".data ++ ".js".data]) ∧
    joinSegs (["src".data] ++ ["a".data ++ ".js".data]) = "src/a.js".data :=
  ⟨decaf_C9_inplace ["src".data] "a".data (by decide) (by decide), by decide⟩

/-- C7: the work list is a finite list at every point (it lives in
`List Path`); each classification step removes exactly the head: a
failed stat abandons exactly the tail, a failed directory listing, a
failed read, and a completed file step (successful or failed write)
all continue with exactly the tail, a successful directory expansion
continues with the tail prefixed by exactly the eligible children, and
the fatal conversion outcomes leave the tail untouched — no error ever
adds work items. -/
theorem decaf_C7_worklist_deltas (cfg : Config) (fs : FS) (cb : Bool) (fuel : Nat)
    (p : Path) (rest : List Path) (errors : List Err) (events : List Event) :
    (∀ e, fs.stat p = .error e →
      runLoop cfg fs cb (fuel + 1) (p :: rest) errors events =
        .stalled (errors ++ [e]) (events ++ [.statCall p]) rest) ∧
    (∀ e, fs.stat p = .ok true → fs.readdir p = .error e →
      runLoop cfg fs cb (fuel + 1) (p :: rest) errors events =
        runLoop cfg fs cb fuel rest (errors ++ [e])
          (events ++ [.statCall p, .readdirCall p])) ∧
    (∀ children, fs.stat p = .ok true → fs.readdir p = .ok children →
      runLoop cfg fs cb (fuel + 1) (p :: rest) errors events =
        runLoop cfg fs cb fuel
          (((children.filter (extFilter cfg.modernizeJS)).map (fun c => joinL p c))
            ++ rest) errors (events ++ [.statCall p, .readdirCall p]) ∧
      ((((children.filter (extFilter cfg.modernizeJS)).map (fun c => joinL p c))
        ++ rest).length =
        rest.length + (children.filter (extFilter cfg.modernizeJS)).length)) ∧
    (∀ e, fs.stat p = .ok false → fs.readFile p = .error e →
      runLoop cfg fs cb (fuel + 1) (p :: rest) errors events =
        runLoop cfg fs cb fuel rest (errors ++ [e])
          (events ++ [.statCall p, .log (progressLine p (outputPathL p)),
            .readCall p])) ∧
    (∀ data code, fs.stat p = .ok false → fs.readFile p = .ok data →
      cfg.engine p data = .ok code → fs.writeFile (outputPathL p) code = none →
      runLoop cfg fs cb (fuel + 1) (p :: rest) errors events =
        runLoop cfg fs cb fuel rest errors
          (events ++ [.statCall p, .log (progressLine p (outputPathL p)), .readCall p,
            .convertCall p data, .writeCall (outputPathL p) code])) ∧
    (∀ data code e, fs.stat p = .ok false → fs.readFile p = .ok data →
      cfg.engine p data = .ok code → fs.writeFile (outputPathL p) code = some e →
      runLoop cfg fs cb (fuel + 1) (p :: rest) errors events =
        runLoop cfg fs cb fuel rest (errors ++ [e])
          (events ++ [.statCall p, .log (progressLine p (outputPathL p)), .readCall p,
            .convertCall p data, .writeCall (outputPathL p) code])) := by
  refine ⟨?_, ?_, ?_, ?_, ?_, ?_⟩
  · intro e h
    exact runLoop_stat_error cfg fs cb fuel p rest errors events e h
  · intro e h1 h2
    exact runLoop_dir_error cfg fs cb fuel p rest errors events e h1 h2
  · intro children h1 h2
    refine ⟨runLoop_dir_ok cfg fs cb fuel p rest errors events children h1 h2, ?_⟩
    simp [Nat.add_comm]
  · intro e h1 h2
    exact runLoop_file_read_error cfg fs cb fuel p rest errors events e h1 h2
  · intro data code h1 h2 h3 h4
    exact runLoop_file_write_ok cfg fs cb fuel p rest errors events data code h1 h2 h3 h4
  · intro data code e h1 h2 h3 h4
    exact runLoop_file_write_error cfg fs cb fuel p rest errors events data code e
      h1 h2 h3 h4

/-- C7 witness: the directory-expansion delta on the fixture: one item
removed, two eligible children added. -/
theorem decaf_C7_witness :
    (runLoop cfgFix fsC5 true 2 ["D".data] [] [] =
      runLoop cfgFix fsC5 true 1
        (((["x.coffee".data, "y.coffee".data, "README".data].filter
          (extFilter cfgFix.modernizeJS)).map (fun c => joinL "D".data c)) ++ []) []
        ([] ++ [.statCall "D".data, .readdirCall "D".data]) ∧
    ((((["x.coffee".data, "y.coffee".data, "README".data].filter
      (extFilter cfgFix.modernizeJS)).map (fun c => joinL "D".data c)) ++ []).length =
      ([] : List Path).length +
        (["x.coffee".data, "y.coffee".data, "README".data].filter
          (extFilter cfgFix.modernizeJS)).length)) :=
  (decaf_C7_worklist_deltas cfgFix fsC5 true 1 "D".data [] [] []).2.2.1
    ["x.coffee".data, "y.coffee".data, "README".data] rfl rfl

/-- C8: in stream mode every input chunk is appended into one buffer
and the conversion engine is invoked exactly once, on the whole text;
on success exactly one write of the whole output buffer goes to stdout;
no filesystem event of any kind occurs; and the entry point dispatches
to stream mode exactly when no paths were supplied. -/
theorem decaf_C8_stream_single_shot (cfg : Config) (chunks : List Str) :
    ((runWithStdio cfg chunks).eventsOf.countP (fun e => isConvertEvent e) = 1) ∧
    (Event.convertCall "stdin".data chunks.flatten ∈
      (runWithStdio cfg chunks).eventsOf) ∧
    ((runWithStdio cfg chunks).eventsOf.filter (fun e => isFsEvent e) = []) ∧
    (∀ code, cfg.engine "stdin".data chunks.flatten = .ok code →
      runWithStdio cfg chunks =
        .ok [.convertCall "stdin".data chunks.flatten, .stdoutWrite code]) ∧
    (∀ (fs : FS) (fuel : Nat),
      run cfg [] fs chunks fuel = .stdio (runWithStdio cfg chunks)) := by
  refine ⟨?_, ?_, ?_, ?_, ?_⟩
  · cases heng : cfg.engine "stdin".data chunks.flatten <;>
      simp [runWithStdio, heng, StdioOutcome.eventsOf, isConvertEvent]
  · cases heng : cfg.engine "stdin".data chunks.flatten <;>
      simp [runWithStdio, heng, StdioOutcome.eventsOf]
  · cases heng : cfg.engine "stdin".data chunks.flatten <;>
      simp [runWithStdio, heng, StdioOutcome.eventsOf, isFsEvent]
  · intro code hcode
    simp [runWithStdio, hcode]
  · intro fs fuel
    simp [run]

/-- C8 witness: the spec's example input `a = 1` as a single chunk under
the echoing fixture engine. -/
theorem decaf_C8_witness :
    runWithStdio cfgFix ["a = 1".data] =
      .ok [.convertCall "stdin".data (["a = 1".data] : List Str).flatten,
        .stdoutWrite "a = 1".data] :=
  (decaf_C8_stream_single_shot cfgFix ["a = 1".data]).2.2.2.1 "a = 1".data (by decide)

/-- C10: the `run` entry point invokes the traversal with no completion
callback, so no outcome of such a run ever delivers the accumulated
errors to a caller; concretely, a run whose only failure is a read
error completes as the same success outcome shape (`done`, nothing
delivered) as a fully clean run, the errors having been discarded. -/
theorem decaf_C10_errors_discarded :
    (∀ (cfg : Config) (fs : FS) (chunks : List Str) (fuel : Nat) (paths : List Path),
      paths ≠ [] →
      run cfg paths fs chunks fuel = .traversal (runLoop cfg fs false fuel paths [] [])) ∧
    (∀ (cfg : Config) (fs : FS) (fuel : Nat) (pending : List Path)
      (errors : List Err) (events : List Event),
      (runLoop cfg fs false fuel pending errors events).deliveredOf = none) ∧
    (runWithPaths cfgFix fsC10 ["bad.coffee".data] false 3).isDone = true ∧
    (runWithPaths cfgFix fsC10 ["bad.coffee".data] false 3).errorsOf = [errRead] ∧
    (runWithPaths cfgFix fsC10 ["bad.coffee".data] false 3).deliveredOf = none ∧
    (runWithPaths cfgFix fsC10 ["ok.coffee".data] false 3).isDone = true ∧
    (runWithPaths cfgFix fsC10 ["ok.coffee".data] false 3).errorsOf = [] ∧
    (runWithPaths cfgFix fsC10 ["ok.coffee".data] false 3).deliveredOf = none := by
  refine ⟨?_, ?_, by decide, by decide, by decide, by decide, by decide, by decide⟩
  · intro cfg fs chunks fuel paths hne
    simp [run, hne, runWithPaths]
  · intro cfg fs fuel
    induction fuel with
    | zero => intro pending errors events; rfl
    | succ n ih =>
      intro pending errors events
      cases pending with
      | nil => simp [runLoop, Outcome.deliveredOf]
      | cons p rest =>
        cases hstat : fs.stat p with
        | error e =>
          rw [runLoop_stat_error cfg fs false n p rest errors events e hstat]
          rfl
        | ok isDir =>
          cases isDir with
          | false =>
            cases hread : fs.readFile p with
            | error e =>
              rw [runLoop_file_read_error cfg fs false n p rest errors events e
                hstat hread]
              exact ih _ _ _
            | ok data =>
              cases heng : cfg.engine p data with
              | patch m =>
                rw [runLoop_file_patch cfg fs false n p rest errors events data m
                  hstat hread heng]
                rfl
              | err e =>
                rw [runLoop_file_throw cfg fs false n p rest errors events data e
                  hstat hread heng]
                rfl
              | ok code =>
                cases hw : fs.writeFile (outputPathL p) code with
                | some e =>
                  rw [runLoop_file_write_error cfg fs false n p rest errors events
                    data code e hstat hread heng hw]
                  exact ih _ _ _
                | none =>
                  rw [runLoop_file_write_ok cfg fs false n p rest errors events
                    data code hstat hread heng hw]
                  exact ih _ _ _
          | true =>
            cases hdir : fs.readdir p with
            | error e =>
              rw [runLoop_dir_error cfg fs false n p rest errors events e hstat hdir]
              exact ih _ _ _
            | ok children =>
              rw [runLoop_dir_ok cfg fs false n p rest errors events children
                hstat hdir]
              exact ih _ _ _

/-- C10 witness: the entry-point dispatch and its silent completion on
the read-failure fixture. -/
theorem decaf_C10_witness :
    run cfgFix ["bad.coffee".data] fsC10 [] 3 =
      .traversal (runLoop cfgFix fsC10 false 3 ["bad.coffee".data] [] []) ∧
    (runLoop cfgFix fsC10 false 3 ["bad.coffee".data] [] []).deliveredOf = none :=
  ⟨decaf_C10_errors_discarded.1 cfgFix fsC10 [] 3 ["bad.coffee".data] (by decide),
   decaf_C10_errors_discarded.2.1 cfgFix fsC10 3 ["bad.coffee".data] [] []⟩

end Decaf
